import Mathlib

set_option maxRecDepth 8000

/-!
Verification of the response-parsing, markup-repair, packaging and
orchestration logic of `master.py` (AI portfolio website generator).

Strings are modelled as `List Char`.  Python's string primitives used by the
source are embedded as executable functions:

* `leadsB p s` — `s.startswith(p)` (`p` is an initial run of `s`);
* `withinB p s` — Python's substring test `p in s`;
* `splitFirst t s` — the first step of `s.split(t)`: the part before the
  first occurrence of `t` and the part after it (`none` when `t` is absent);
* `pyReplace s t r` — `s.replace(t, r)`: every non-overlapping occurrence of
  `t`, found left to right, is replaced by `r` (the source only calls it with
  non-empty literal patterns; for an empty pattern Python raises no error but
  inserts `r` at every boundary, a case the source never exercises and the
  embedding maps to the identity);
* `pyStrip s` — `s.strip()` for the ASCII whitespace characters.
-/

/-- Bool test that `p` is an initial run of `s` (Python `s.startswith(p)`). -/
def leadsB : List Char → List Char → Bool
  | [], _ => true
  | _ :: _, [] => false
  | a :: p, b :: s => a == b && leadsB p s

/-- Bool substring test, Python's `p in s`. -/
def withinB (p : List Char) : List Char → Bool
  | [] => leadsB p []
  | c :: s => leadsB p (c :: s) || withinB p s

/-- Bool test that `p` is a final run of `s` (Python `s.endswith(p)`). -/
def endsB (p s : List Char) : Bool := leadsB p.reverse s.reverse

/-- Python's ASCII whitespace characters (as stripped by `str.strip()`). -/
def pySpace (c : Char) : Bool :=
  c == ' ' || c == '\t' || c == '\n' || c == '\r' || c == '\x0b' || c == '\x0c'

/-- Python `s.strip()`: leading and trailing whitespace removed. -/
def pyStrip (s : List Char) : List Char :=
  ((s.dropWhile pySpace).reverse.dropWhile pySpace).reverse

/-- Splits `s` at the first occurrence of `t`: `some (before, after)`, or
`none` when `t` does not occur.  This is the elementary step of Python's
`s.split(t)`: piece `[0]` is `before`, and the later pieces are obtained by
splitting `after` again. -/
def splitFirst (t : List Char) : List Char → Option (List Char × List Char)
  | [] => if leadsB t [] then some ([], []) else none
  | c :: s =>
    if leadsB t (c :: s) then some ([], (c :: s).drop t.length)
    else
      match splitFirst t s with
      | none => none
      | some (a, b) => some (c :: a, b)

/-- Fuel-driven core of Python `s.replace(t, r)`; `fuel ≥ s.length` makes the
fuel irrelevant.  Occurrences of `t` are found left to right, without overlap,
and scanning resumes after the consumed occurrence (the replacement text is
not rescanned), exactly as CPython does. -/
def pyReplaceAux (t r : List Char) : Nat → List Char → List Char
  | _, [] => []
  | 0, s => s
  | fuel + 1, c :: s =>
    if t ≠ [] ∧ leadsB t (c :: s) = true then
      r ++ pyReplaceAux t r fuel ((c :: s).drop t.length)
    else
      c :: pyReplaceAux t r fuel s

/-- Python `s.replace(t, r)` (for the non-empty patterns the source uses). -/
def pyReplace (s t r : List Char) : List Char := pyReplaceAux t r s.length s

/-- Translation of `extract_section(text, start, end)` from `master.py`:
`text.split(start)[1].split(end)[0].strip()` with every exception swallowed
into `""`.  `text.split(start)[1]` is the text between the first occurrence
of `start` and the following occurrence (or the end of the text); indexing it
fails when `start` is absent, and `split` on an empty separator raises; both
paths land in the `except` clause and produce the empty string. -/
def extract_section (text start fin : List Char) : List Char :=
  if start.isEmpty || fin.isEmpty then []
  else
    match splitFirst start text with
    | none => []
    | some (_, rest) =>
      let piece :=
        match splitFirst start rest with
        | none => rest
        | some (a, _) => a
      match splitFirst fin piece with
      | none => pyStrip piece
      | some (b, _) => pyStrip b

/-- The literal stylesheet-link presence check of `fix_html_links`. -/
def linkTag : List Char := "<link rel=\"stylesheet\"".toList

/-- The literal script-tag presence check of `fix_html_links`. -/
def scriptTag : List Char := "<script src=\"script.js\"".toList

/-- The closing head tag replaced by `fix_html_links`. -/
def headClose : List Char := "</head>".toList

/-- The closing body tag replaced by `fix_html_links`. -/
def bodyClose : List Char := "</body>".toList

/-- The replacement text for `</head>` in `fix_html_links`. -/
def linkIns : List Char :=
  "  <link rel=\"stylesheet\" href=\"style.css\">\n</head>".toList

/-- The replacement text for `</body>` in `fix_html_links`. -/
def scriptIns : List Char :=
  "  <script src=\"script.js\"></script>\n</body>".toList

/-- The part of `linkIns` preceding the re-emitted `</head>`. -/
def linkInsHead : List Char :=
  "  <link rel=\"stylesheet\" href=\"style.css\">\n".toList

/-- The part of `scriptIns` preceding the re-emitted `</body>`. -/
def scriptInsHead : List Char :=
  "  <script src=\"script.js\"></script>\n".toList

/-- Translation of `fix_html_links(html)` from `master.py`:
if `'<link rel="stylesheet"'` is not a substring, every `</head>` is replaced
by the stylesheet link followed by `</head>`; then, if
`'<script src="script.js"'` is not a substring, every `</body>` is replaced by
the script tag followed by `</body>`. -/
def fix_html_links (html : List Char) : List Char :=
  let h1 := if withinB linkTag html then html
            else pyReplace html headClose linkIns
  if withinB scriptTag h1 then h1
  else pyReplace h1 bodyClose scriptIns

/-- The `--html--` section marker. -/
def htmlMarker : List Char := "--html--".toList

/-- The `--css--` section marker. -/
def cssMarker : List Char := "--css--".toList

/-- The `--js--` section marker. -/
def jsMarker : List Char := "--js--".toList

/-- The in-memory archive built by the `zipfile.ZipFile`/`writestr` block:
three named entries, each holding its text verbatim.  The external zip
library's DEFLATE encode/decode and UTF-8 encode/decode round-trips are
modelled as the identity on the stored text, so an archive is an association
list from entry name to content. -/
def pack (html css js : List Char) : List (String × List Char) :=
  [("index.html", html), ("style.css", css), ("script.js", js)]

/-- Reading one named entry back from an archive (`ZipFile.read(name)`). -/
def readEntry (ar : List (String × List Char)) (n : String) :
    Option (List Char) :=
  (ar.find? (fun e => e.1 == n)).map (fun e => e.2)

/-- Outcome of one generation cycle of the page script. -/
inductive GenResult where
  /-- The brief was blank: `st.error`, `st.stop()` before the model call. -/
  | emptyInput : GenResult
  /-- The markup section was empty: `st.error`, `st.code(response)`,
  `st.stop()` before repair and packaging; the raw reply is shown. -/
  | parseFailure (raw : List Char) : GenResult
  /-- Repair ran and the archive was offered for download. -/
  | success (archive : List (String × List Char)) : GenResult
deriving DecidableEq

/-- Translation of the `if st.button(...)` block of `master.py`.  The model
reply is a parameter standing for the value the external chat-model call
would return; the source consults it only after the non-empty-input guard
passes, so in the guard-failure branch the result does not depend on it. -/
def generate_site (user_prompt response : List Char) : GenResult :=
  if pyStrip user_prompt = [] then .emptyInput
  else
    let html_code := extract_section response htmlMarker htmlMarker
    let css_code := extract_section response cssMarker cssMarker
    let js_code := extract_section response jsMarker jsMarker
    if html_code = [] then .parseFailure response
    else .success (pack (fix_html_links html_code) css_code js_code)

/-! ### Basic facts about `leadsB`, `withinB` and `endsB` -/

theorem leadsB_iff : ∀ p s : List Char, leadsB p s = true ↔ ∃ u, s = p ++ u
  | [], s => by simp [leadsB]
  | a :: p, [] => by simp [leadsB]
  | a :: p, b :: s => by
    simp only [leadsB, Bool.and_eq_true, beq_iff_eq, List.cons_append,
      List.cons.injEq]
    rw [leadsB_iff p s]
    constructor
    · rintro ⟨rfl, u, rfl⟩
      exact ⟨u, rfl, rfl⟩
    · rintro ⟨u, rfl, rfl⟩
      exact ⟨rfl, u, rfl⟩

theorem leadsB_append (p u : List Char) : leadsB p (p ++ u) = true :=
  (leadsB_iff p (p ++ u)).2 ⟨u, rfl⟩

theorem leadsB_rfl (p : List Char) : leadsB p p = true := by
  have := leadsB_append p []
  simpa using this

theorem leadsB_length {p s : List Char} (h : leadsB p s = true) :
    p.length ≤ s.length := by
  obtain ⟨u, rfl⟩ := (leadsB_iff p s).1 h
  simp

theorem leadsB_drop_recover {p s : List Char} (h : leadsB p s = true) :
    s = p ++ s.drop p.length := by
  obtain ⟨u, rfl⟩ := (leadsB_iff p s).1 h
  rw [List.drop_left]

theorem leadsB_mono_right {p x : List Char} (y : List Char)
    (h : leadsB p x = true) : leadsB p (x ++ y) = true := by
  obtain ⟨u, rfl⟩ := (leadsB_iff p x).1 h
  exact (leadsB_iff _ _).2 ⟨u ++ y, by simp⟩

theorem leadsB_of_le {t p v : List Char} (h : leadsB t (p ++ v) = true)
    (hl : t.length ≤ p.length) : leadsB t p = true := by
  obtain ⟨u, hu⟩ := (leadsB_iff t (p ++ v)).1 h
  have h1 : (p ++ v).take t.length = t := by
    rw [hu, List.take_left]
  have h2 : (p ++ v).take t.length = p.take t.length := by
    rw [List.take_append_eq_append_take, Nat.sub_eq_zero_of_le hl,
      List.take_zero, List.append_nil]
  have h3 : p.take t.length = t := h2.symm.trans h1
  refine (leadsB_iff _ _).2 ⟨p.drop t.length, ?_⟩
  conv_lhs => rw [← List.take_append_drop t.length p]
  rw [h3]

theorem leadsB_split {t u x : List Char} (h : leadsB t (u ++ x) = true)
    (hl : u.length ≤ t.length) :
    leadsB u t = true ∧ leadsB (t.drop u.length) x = true := by
  obtain ⟨w, hw⟩ := (leadsB_iff t (u ++ x)).1 h
  have h1 : (u ++ x).take t.length = t := by
    rw [hw, List.take_left]
  have h2 : (u ++ x).take t.length = u ++ x.take (t.length - u.length) := by
    rw [List.take_append_eq_append_take, List.take_of_length_le hl]
  have htake : t = u ++ x.take (t.length - u.length) := (h2.symm.trans h1).symm
  constructor
  · exact (leadsB_iff _ _).2 ⟨_, htake⟩
  · have hdrop : t.drop u.length = x.take (t.length - u.length) := by
      conv_lhs => rw [htake]
      rw [List.drop_left]
    rw [hdrop]
    exact (leadsB_iff _ _).2 ⟨_, (List.take_append_drop _ _).symm⟩

theorem leadsB_nil_iff (p : List Char) : leadsB p [] = true ↔ p = [] := by
  rw [leadsB_iff]
  simp

theorem withinB_iff : ∀ p s : List Char,
    withinB p s = true ↔ ∃ u v, s = u ++ p ++ v
  | p, [] => by
    simp only [withinB, leadsB_nil_iff]
    constructor
    · rintro rfl
      exact ⟨[], [], rfl⟩
    · rintro ⟨u, v, h⟩
      have h' : u ++ (p ++ v) = [] := by simpa using h.symm
      simp only [List.append_eq_nil] at h'
      exact h'.2.1
  | p, c :: s => by
    simp only [withinB, Bool.or_eq_true]
    rw [leadsB_iff, withinB_iff p s]
    constructor
    · rintro (⟨u, hu⟩ | ⟨u, v, rfl⟩)
      · exact ⟨[], u, by simpa using hu⟩
      · exact ⟨c :: u, v, by simp⟩
    · rintro ⟨u, v, h⟩
      rcases u with _ | ⟨d, u⟩
      · exact Or.inl ⟨v, by simpa using h⟩
      · rw [List.cons_append, List.cons_append, List.cons.injEq] at h
        exact Or.inr ⟨u, v, by simp [h.2]⟩

theorem within_of_leads {p s : List Char} (h : leadsB p s = true) :
    withinB p s = true := by
  obtain ⟨u, rfl⟩ := (leadsB_iff p s).1 h
  exact (withinB_iff _ _).2 ⟨[], u, by simp⟩

theorem within_cons {p s : List Char} (c : Char) (h : withinB p s = true) :
    withinB p (c :: s) = true := by
  simp [withinB, h]

theorem within_append_right {p v : List Char} (u : List Char)
    (h : withinB p v = true) : withinB p (u ++ v) = true := by
  obtain ⟨x, y, rfl⟩ := (withinB_iff p v).1 h
  exact (withinB_iff _ _).2 ⟨u ++ x, y, by simp⟩

theorem within_append_left {p u : List Char} (v : List Char)
    (h : withinB p u = true) : withinB p (u ++ v) = true := by
  obtain ⟨x, y, rfl⟩ := (withinB_iff p u).1 h
  exact (withinB_iff _ _).2 ⟨x, y ++ v, by simp⟩

theorem within_trans {p q s : List Char} (h1 : withinB p q = true)
    (h2 : withinB q s = true) : withinB p s = true := by
  obtain ⟨u, v, rfl⟩ := (withinB_iff q s).1 h2
  obtain ⟨x, y, rfl⟩ := (withinB_iff p q).1 h1
  exact (withinB_iff _ _).2 ⟨u ++ x, y ++ v, by simp⟩

theorem within_drop {p s : List Char} (n : Nat)
    (h : withinB p (s.drop n) = true) : withinB p s = true := by
  have := within_append_right (p := p) (s.take n) h
  rwa [List.take_append_drop] at this

theorem within_occ {p s : List Char} {j : Nat}
    (h : leadsB p (s.drop j) = true) : withinB p s = true :=
  within_drop j (within_of_leads h)

theorem occ_of_within {p s : List Char} (h : withinB p s = true) :
    ∃ j, j + p.length ≤ s.length ∧ leadsB p (s.drop j) = true := by
  obtain ⟨u, v, rfl⟩ := (withinB_iff p s).1 h
  refine ⟨u.length, by simp only [List.length_append]; omega, ?_⟩
  rw [List.append_assoc, List.drop_left]
  exact leadsB_append p v

theorem endsB_iff (p s : List Char) : endsB p s = true ↔ ∃ u, s = u ++ p := by
  rw [endsB, leadsB_iff]
  constructor
  · rintro ⟨u, hu⟩
    refine ⟨u.reverse, ?_⟩
    have := congrArg List.reverse hu
    simpa using this
  · rintro ⟨u, rfl⟩
    exact ⟨u.reverse, by simp⟩

theorem endsB_cons {p s : List Char} (c : Char) (h : endsB p s = true) :
    endsB p (c :: s) = true := by
  obtain ⟨u, rfl⟩ := (endsB_iff p s).1 h
  exact (endsB_iff _ _).2 ⟨c :: u, rfl⟩

theorem endsB_rfl (p : List Char) : endsB p p = true :=
  (endsB_iff p p).2 ⟨[], rfl⟩

theorem within_append_cases : ∀ x {p y : List Char},
    withinB p (x ++ y) = true →
    withinB p x = true ∨ withinB p y = true ∨
      ∃ k, 0 < k ∧ k < p.length ∧ endsB (p.take k) x = true ∧
        leadsB (p.drop k) y = true
  | [], p, y => fun h => Or.inr (Or.inl (by simpa using h))
  | c :: x, p, y => fun h => by
    rw [List.cons_append] at h
    have h' : leadsB p (c :: (x ++ y)) = true ∨ withinB p (x ++ y) = true := by
      have hb : (leadsB p (c :: (x ++ y)) || withinB p (x ++ y)) = true := h
      simpa using hb
    rcases h' with hlead | hwit
    · rcases le_or_lt p.length (c :: x).length with hle | hlt
      · exact Or.inl (within_of_leads (leadsB_of_le (by simpa using hlead) hle))
      · have hsplit := leadsB_split (t := p) (u := c :: x) (x := y)
          (by simpa using hlead) (le_of_lt hlt)
        refine Or.inr (Or.inr ⟨(c :: x).length, by simp, hlt, ?_, hsplit.2⟩)
        have : p.take (c :: x).length = c :: x := by
          obtain ⟨w, hw⟩ := (leadsB_iff (c :: x) p).1 hsplit.1
          rw [hw, List.take_left]
        rw [this]
        exact endsB_rfl _
    · rcases within_append_cases x hwit with h1 | h2 | ⟨k, hk0, hkp, he, hl⟩
      · exact Or.inl (within_cons c h1)
      · exact Or.inr (Or.inl h2)
      · exact Or.inr (Or.inr ⟨k, hk0, hkp, endsB_cons c he, hl⟩)

/-! ### Facts about `pyReplace` -/

theorem aux_nil (t r : List Char) (fuel : Nat) :
    pyReplaceAux t r fuel [] = [] := by
  cases fuel <;> rfl

theorem aux_zero (t r : List Char) (s : List Char) :
    pyReplaceAux t r 0 s = s := by
  cases s <;> rfl

theorem aux_cons (t r : List Char) (fuel : Nat) (c : Char) (s : List Char) :
    pyReplaceAux t r (fuel + 1) (c :: s) =
      if t ≠ [] ∧ leadsB t (c :: s) = true then
        r ++ pyReplaceAux t r fuel ((c :: s).drop t.length)
      else c :: pyReplaceAux t r fuel s := rfl

theorem aux_congr (t r : List Char) : ∀ f1 f2 s, s.length ≤ f1 →
    s.length ≤ f2 → pyReplaceAux t r f1 s = pyReplaceAux t r f2 s := by
  intro f1
  induction f1 with
  | zero =>
    intro f2 s h1 _
    have hs : s = [] := by rwa [Nat.le_zero, List.length_eq_zero] at h1
    subst hs
    rw [aux_zero, aux_nil]
  | succ f1 IH =>
    intro f2 s h1 h2
    cases s with
    | nil => rw [aux_nil, aux_nil]
    | cons c s' =>
      cases f2 with
      | zero => simp at h2
      | succ f2' =>
        rw [aux_cons, aux_cons]
        by_cases hc : t ≠ [] ∧ leadsB t (c :: s') = true
        · rw [if_pos hc, if_pos hc]
          have ht1 : 1 ≤ t.length := by
            rcases t with _ | ⟨a, b⟩
            · exact absurd rfl hc.1
            · simp
          congr 1
          apply IH
          · rw [List.length_drop]
            simp only [List.length_cons] at h1 ⊢
            omega
          · rw [List.length_drop]
            simp only [List.length_cons] at h2 ⊢
            omega
        · rw [if_neg hc, if_neg hc]
          congr 1
          apply IH
          · simp only [List.length_cons] at h1; omega
          · simp only [List.length_cons] at h2; omega

theorem aux_eq_replace (t r : List Char) (s : List Char) (fuel : Nat)
    (h : s.length ≤ fuel) : pyReplaceAux t r fuel s = pyReplace s t r :=
  aux_congr t r fuel s.length s h (le_refl _)

theorem replace_absent_aux (t r : List Char) : ∀ fuel s,
    withinB t s = false → pyReplaceAux t r fuel s = s := by
  intro fuel
  induction fuel with
  | zero => intro s _; exact aux_zero t r s
  | succ f IH =>
    intro s h
    cases s with
    | nil => exact aux_nil t r _
    | cons c s' =>
      have hb : (leadsB t (c :: s') || withinB t s') = false := h
      rw [Bool.or_eq_false_iff] at hb
      rw [aux_cons, if_neg]
      · rw [IH s' hb.2]
      · rintro ⟨-, hl⟩
        simp [hb.1] at hl

theorem replace_absent {t s : List Char} (r : List Char)
    (h : withinB t s = false) : pyReplace s t r = s :=
  replace_absent_aux t r s.length s h

theorem replace_has_rep_aux (t r : List Char) (ht : t ≠ []) : ∀ fuel s,
    s.length ≤ fuel → withinB t s = true →
    withinB r (pyReplaceAux t r fuel s) = true := by
  intro fuel
  induction fuel with
  | zero =>
    intro s hle hw
    have hs : s = [] := by rwa [Nat.le_zero, List.length_eq_zero] at hle
    subst hs
    exact absurd ((leadsB_nil_iff t).1 (by simpa [withinB] using hw)) ht
  | succ f IH =>
    intro s hle hw
    cases s with
    | nil =>
      exact absurd ((leadsB_nil_iff t).1 (by simpa [withinB] using hw)) ht
    | cons c s' =>
      rw [aux_cons]
      by_cases hc : t ≠ [] ∧ leadsB t (c :: s') = true
      · rw [if_pos hc]
        exact within_of_leads (leadsB_append r _)
      · rw [if_neg hc]
        cases hLB : leadsB t (c :: s') with
        | true => exact absurd ⟨ht, hLB⟩ hc
        | false =>
          have hw' : withinB t s' = true := by
            have hb : (leadsB t (c :: s') || withinB t s') = true := hw
            simpa [hLB] using hb
          refine within_cons c (IH s' ?_ hw')
          simp only [List.length_cons] at hle
          omega

theorem replace_has_rep {t s : List Char} (r : List Char) (ht : t ≠ [])
    (hw : withinB t s = true) : withinB r (pyReplace s t r) = true :=
  replace_has_rep_aux t r ht s.length s (le_refl _) hw

theorem replace_at_aux (t r b : List Char) (ht : t ≠ []) : ∀ a fuel,
    ((a ++ t) ++ b).length ≤ fuel →
    (∀ j < a.length, leadsB t (((a ++ t) ++ b).drop j) = false) →
    pyReplaceAux t r fuel ((a ++ t) ++ b) = (a ++ r) ++ pyReplace b t r := by
  intro a
  induction a with
  | nil =>
    intro fuel hle _
    obtain ⟨c, t', rfl⟩ := List.exists_cons_of_ne_nil ht
    simp only [List.nil_append] at hle ⊢
    cases fuel with
    | zero => simp at hle
    | succ f =>
      rw [List.cons_append, aux_cons, if_pos]
      · rw [← List.cons_append, List.drop_left]
        congr 1
        apply aux_eq_replace
        simp only [List.length_append, List.length_cons] at hle
        omega
      · exact ⟨ht, by rw [← List.cons_append]; exact leadsB_append _ b⟩
  | cons c a' IH =>
    intro fuel hle hj
    have hs : ((c :: a' ++ t) ++ b) = c :: ((a' ++ t) ++ b) := by simp
    rw [hs]
    cases fuel with
    | zero => rw [hs] at hle; simp at hle
    | succ f =>
      rw [aux_cons, if_neg]
      · have hj' : ∀ j < a'.length, leadsB t (((a' ++ t) ++ b).drop j) = false := by
          intro j hjl
          have := hj (j + 1) (by simpa using Nat.succ_lt_succ hjl)
          rwa [hs, List.drop_succ_cons] at this
        rw [IH f (by rw [hs] at hle; simpa using Nat.le_of_succ_le_succ (by simpa using hle)) hj']
        simp
      · rintro ⟨-, hl⟩
        have h0 := hj 0 (by simp)
        rw [List.drop_zero, hs] at h0
        simp only [List.append_assoc] at h0
        simp [h0] at hl

theorem replace_at {t b : List Char} (r a : List Char) (ht : t ≠ [])
    (hj : ∀ j < a.length, leadsB t (((a ++ t) ++ b).drop j) = false) :
    pyReplace ((a ++ t) ++ b) t r = (a ++ r) ++ pyReplace b t r :=
  replace_at_aux t r b ht a _ (le_refl _) hj

theorem replace_leads_aux (t r : List Char) : ∀ p,
    withinB t p = false → (∀ j < p.length, leadsB (p.drop j) t = false) →
    ∀ v fuel, (p ++ v).length ≤ fuel →
    pyReplaceAux t r fuel (p ++ v) = p ++ pyReplace v t r := by
  intro p
  induction p with
  | nil =>
    intro _ _ v fuel hle
    simpa using aux_eq_replace t r v fuel (by simpa using hle)
  | cons c p' IH =>
    intro hw hj v fuel hle
    cases fuel with
    | zero => simp at hle
    | succ f =>
      rw [List.cons_append, aux_cons, if_neg]
      · have hb : (leadsB t (c :: p') || withinB t p') = false := hw
        rw [Bool.or_eq_false_iff] at hb
        have hj' : ∀ j < p'.length, leadsB (p'.drop j) t = false := by
          intro j hjl
          have := hj (j + 1) (by simpa using Nat.succ_lt_succ hjl)
          rwa [List.drop_succ_cons] at this
        rw [IH hb.2 hj' v f
          (by simp only [List.cons_append, List.length_cons] at hle; omega)]
        rw [List.cons_append]
      · rintro ⟨-, hl⟩
        rcases le_or_lt t.length (c :: p').length with hle2 | hlt
        · have hlp : leadsB t (c :: p') = true :=
            leadsB_of_le (by simpa [List.cons_append] using hl) hle2
          have := within_of_leads hlp
          simp [hw] at this
        · have hsp := leadsB_split (t := t) (u := c :: p') (x := v)
            (by simpa [List.cons_append] using hl) (le_of_lt hlt)
          have h0 := hj 0 (by simp)
          rw [List.drop_zero] at h0
          simp [h0] at hsp

theorem replace_keeps_aux (t r p : List Char) (ht : t ≠ [])
    (hw1 : withinB t p = false)
    (hj1 : ∀ j < p.length, leadsB (p.drop j) t = false)
    (hw2 : withinB p t = false)
    (hk1 : ∀ k < t.length, 0 < k → leadsB (t.drop k) p = false) :
    ∀ fuel u v, ((u ++ p) ++ v).length ≤ fuel →
    ∃ w z, pyReplaceAux t r fuel ((u ++ p) ++ v) = (w ++ p) ++ z := by
  intro fuel
  induction fuel with
  | zero =>
    intro u v hle
    have h0 : ((u ++ p) ++ v) = [] := by
      rwa [Nat.le_zero, List.length_eq_zero] at hle
    refine ⟨[], [], ?_⟩
    rw [aux_zero, h0]
    have : u = [] ∧ p = [] ∧ v = [] := by
      simpa [List.append_eq_nil, and_assoc] using h0
    simp [this.2.1]
  | succ f IH =>
    intro u v hle
    cases u with
    | nil =>
      refine ⟨[], pyReplace v t r, ?_⟩
      have := replace_leads_aux t r p hw1 hj1 v (f + 1) (by simpa using hle)
      simpa using this
    | cons c u' =>
      have hs : ((c :: u' ++ p) ++ v) = c :: ((u' ++ p) ++ v) := by simp
      rw [hs]
      by_cases hc : t ≠ [] ∧ leadsB t (c :: ((u' ++ p) ++ v)) = true
      · rw [aux_cons, if_pos hc]
        have hc2 : leadsB t ((c :: u') ++ (p ++ v)) = true := by
          have := hc.2
          simpa [List.append_assoc] using this
        rcases le_or_lt t.length (c :: u').length with hle2 | hlt
        · have hlu : leadsB t (c :: u') = true := leadsB_of_le hc2 hle2
          have hu : c :: u' = t ++ (c :: u').drop t.length :=
            leadsB_drop_recover hlu
          have h5 : c :: ((u' ++ p) ++ v) =
              t ++ (((c :: u').drop t.length ++ p) ++ v) := by
            have h6 : (c :: u') ++ (p ++ v) =
                (t ++ (c :: u').drop t.length) ++ (p ++ v) := by rw [← hu]
            simpa [List.append_assoc] using h6
          have hdrop : (c :: ((u' ++ p) ++ v)).drop t.length =
              (((c :: u').drop t.length ++ p) ++ v) := by
            rw [h5, List.drop_left]
          rw [hdrop]
          have ht1 : 1 ≤ t.length := by
            rcases t with _ | ⟨a, b⟩
            · exact absurd rfl ht
            · simp
          obtain ⟨w, z, hwz⟩ := IH ((c :: u').drop t.length) v (by
            have hlen := congrArg List.length h5
            simp only [List.length_cons, List.length_append] at hle hlen ⊢
            omega)
          exact ⟨r ++ w, z, by rw [hwz, List.append_assoc, List.append_assoc,
            List.append_assoc]⟩
        · exfalso
          have hsp := leadsB_split (t := t) (u := c :: u') (x := p ++ v) hc2
            (le_of_lt hlt)
          rcases le_or_lt (t.drop (c :: u').length).length p.length with hle3 | hlt3
          · have hld := leadsB_of_le hsp.2 hle3
            have hk := hk1 (c :: u').length hlt (by simp)
            rw [hk] at hld
            simp at hld
          · have hsp2 := leadsB_split (t := t.drop (c :: u').length) (u := p)
              (x := v) hsp.2 (le_of_lt hlt3)
            obtain ⟨e, he⟩ := (leadsB_iff p (t.drop (c :: u').length)).1 hsp2.1
            have : withinB p t = true := by
              refine (withinB_iff _ _).2 ⟨t.take (c :: u').length, e, ?_⟩
              rw [List.append_assoc, ← he, List.take_append_drop]
            simp [hw2] at this
      · rw [aux_cons, if_neg hc]
        obtain ⟨w, z, hwz⟩ := IH u' v (by
          simp only [List.length_cons, List.length_append] at hle ⊢
          omega)
        exact ⟨c :: w, z, by rw [hwz]; simp⟩

theorem replace_keeps {t p s : List Char} (r : List Char) (ht : t ≠ [])
    (hw1 : withinB t p = false)
    (hj1 : ∀ j < p.length, leadsB (p.drop j) t = false)
    (hw2 : withinB p t = false)
    (hk1 : ∀ k < t.length, 0 < k → leadsB (t.drop k) p = false)
    (hp : withinB p s = true) : withinB p (pyReplace s t r) = true := by
  obtain ⟨u, v, hs⟩ := (withinB_iff p s).1 hp
  subst hs
  obtain ⟨w, z, hwz⟩ := replace_keeps_aux t r p ht hw1 hj1 hw2 hk1
    (u ++ p ++ v).length u v (le_refl _)
  rw [pyReplace, hwz]
  exact (withinB_iff _ _).2 ⟨w, z, by simp⟩

theorem replace_onset_aux (t r p : List Char)
    (hk : ∀ k < p.length, leadsB (p.drop k) r = false)
    (hw : withinB r p = false) :
    ∀ fuel s k, k < p.length →
    leadsB (p.drop k) (pyReplaceAux t r fuel s) = true →
    leadsB (p.drop k) s = true := by
  intro fuel
  induction fuel with
  | zero => intro s k _ h; rwa [aux_zero] at h
  | succ f IH =>
    intro s k hk2 h
    cases s with
    | nil =>
      rw [aux_nil] at h
      have hnil := (leadsB_nil_iff _).1 h
      have hlen : p.length - k = 0 := by
        simpa [List.length_drop] using congrArg List.length hnil
      omega
    | cons c s' =>
      rw [aux_cons] at h
      by_cases hc : t ≠ [] ∧ leadsB t (c :: s') = true
      · exfalso
        rw [if_pos hc] at h
        rcases le_or_lt (p.drop k).length r.length with hle | hlt
        · have hld := leadsB_of_le h hle
          rw [hk k hk2] at hld
          simp at hld
        · have hsp := leadsB_split (t := p.drop k) (u := r) (x := _) h
            (le_of_lt hlt)
          obtain ⟨e, he⟩ := (leadsB_iff r (p.drop k)).1 hsp.1
          have hin : withinB r p = true := by
            refine (withinB_iff _ _).2 ⟨p.take k, e, ?_⟩
            rw [List.append_assoc, ← he, List.take_append_drop]
          rw [hw] at hin
          simp at hin
      · rw [if_neg hc] at h
        have hdk : p.drop k = p[k] :: p.drop (k + 1) :=
          List.drop_eq_getElem_cons hk2
        rw [hdk] at h
        have h1 : p[k] = c ∧
            leadsB (p.drop (k + 1)) (pyReplaceAux t r f s') = true := by
          simpa [leadsB] using h
        rcases Nat.lt_or_ge (k + 1) p.length with hlt2 | hge
        · have hrec := IH s' (k + 1) hlt2 h1.2
          rw [hdk]
          simp [leadsB, h1.1, hrec]
        · have hnil : p.drop (k + 1) = [] := List.drop_eq_nil_of_le hge
          rw [hdk, hnil]
          simp [leadsB, h1.1]

theorem replace_no_new_aux (t r p : List Char)
    (hm1 : withinB p r = false)
    (hm2 : ∀ i < r.length, leadsB (r.drop i) p = false)
    (hk : ∀ k < p.length, leadsB (p.drop k) r = false)
    (hw : withinB r p = false) :
    ∀ fuel s, withinB p (pyReplaceAux t r fuel s) = true →
    withinB p s = true := by
  intro fuel
  induction fuel with
  | zero => intro s h; rwa [aux_zero] at h
  | succ f IH =>
    intro s h
    cases s with
    | nil => rwa [aux_nil] at h
    | cons c s' =>
      rw [aux_cons] at h
      by_cases hc : t ≠ [] ∧ leadsB t (c :: s') = true
      · rw [if_pos hc] at h
        rcases within_append_cases r h with h1 | h2 | ⟨k, hk0, hkp, he, -⟩
        · rw [hm1] at h1; simp at h1
        · exact within_drop _ (IH _ h2)
        · exfalso
          obtain ⟨w, hwr⟩ := (endsB_iff _ _).1 he
          have hwl : w.length < r.length := by
            have hlen := congrArg List.length hwr
            simp only [List.length_append, List.length_take] at hlen
            omega
          have hm := hm2 w.length hwl
          have hd : r.drop w.length = p.take k := by
            conv_lhs => rw [hwr]
            rw [List.drop_left]
          have hlp : leadsB (p.take k) p = true :=
            (leadsB_iff _ _).2 ⟨p.drop k, (List.take_append_drop _ _).symm⟩
          rw [hd, hlp] at hm
          simp at hm
      · rw [if_neg hc] at h
        have h' : leadsB p (c :: pyReplaceAux t r f s') = true ∨
            withinB p (pyReplaceAux t r f s') = true := by
          have hb : (leadsB p (c :: pyReplaceAux t r f s') ||
            withinB p (pyReplaceAux t r f s')) = true := h
          simpa using hb
        rcases h' with hl | hwi
        · cases p with
          | nil => simp [withinB, leadsB]
          | cons d p' =>
            have h1 : d = c ∧ leadsB p' (pyReplaceAux t r f s') = true := by
              simpa [leadsB] using hl
            rcases Nat.lt_or_ge 1 (d :: p').length with hlt | hge
            · have hon := replace_onset_aux t r (d :: p') hk hw f s' 1 hlt
                (by simpa using h1.2)
              refine within_of_leads (p := d :: p') (s := c :: s') ?_
              simp only [List.drop_succ_cons, List.drop_zero] at hon
              simp [leadsB, h1.1, hon]
            · have hp' : p' = [] := by
                rcases p' with _ | ⟨e, p''⟩
                · rfl
                · simp at hge
              subst hp'
              exact within_of_leads (by simp [leadsB, h1.1])
        · exact within_cons c (IH s' hwi)

theorem replace_no_new {t p s : List Char} (r : List Char)
    (hm1 : withinB p r = false)
    (hm2 : ∀ i < r.length, leadsB (r.drop i) p = false)
    (hk : ∀ k < p.length, leadsB (p.drop k) r = false)
    (hw : withinB r p = false)
    (h : withinB p (pyReplace s t r) = true) : withinB p s = true :=
  replace_no_new_aux t r p hm1 hm2 hk hw s.length s h

theorem occ_through_insert {p ins : List Char} (a R : List Char) (j : Nat)
    (hE1 : withinB p ins = false) (hE2 : withinB ins p = false)
    (hE3 : ∀ i < ins.length, leadsB (ins.drop i) p = false)
    (hE4 : ∀ k < p.length, 0 < k → leadsB (p.drop k) ins = false)
    (h : leadsB p (((a ++ ins) ++ R).drop j) = true) :
    (j + p.length ≤ a.length ∧ leadsB p ((a ++ R).drop j) = true) ∨
    (a.length + ins.length ≤ j ∧
      leadsB p ((a ++ R).drop (j - ins.length)) = true) := by
  by_cases h1 : j + p.length ≤ a.length
  · left
    refine ⟨h1, ?_⟩
    have hja : j ≤ a.length := le_trans (Nat.le_add_right j p.length) h1
    have z1 : j - (a ++ ins).length = 0 :=
      Nat.sub_eq_zero_of_le (by simp only [List.length_append]; omega)
    have z2 : j - a.length = 0 := Nat.sub_eq_zero_of_le hja
    have e1 : ((a ++ ins) ++ R).drop j = (a.drop j ++ ins) ++ R := by
      rw [List.drop_append_eq_append_drop, List.drop_append_eq_append_drop,
        z1, z2, List.drop_zero, List.drop_zero]
    have e5 : (a ++ R).drop j = a.drop j ++ R := by
      rw [List.drop_append_eq_append_drop, z2, List.drop_zero]
    rw [e1] at h
    have h'' : leadsB p (a.drop j ++ (ins ++ R)) = true := by
      simpa [List.append_assoc] using h
    have hpa : leadsB p (a.drop j) = true := by
      refine leadsB_of_le h'' ?_
      rw [List.length_drop]
      omega
    rw [e5]
    exact leadsB_mono_right R hpa
  · by_cases h2 : a.length + ins.length ≤ j
    · right
      refine ⟨h2, ?_⟩
      have n1 : (a ++ ins).drop j = [] :=
        List.drop_eq_nil_of_le (by simp only [List.length_append]; omega)
      have e2 : ((a ++ ins) ++ R).drop j = R.drop (j - (a ++ ins).length) := by
        rw [List.drop_append_eq_append_drop, n1, List.nil_append]
      have e3 : (a ++ R).drop (j - ins.length) =
          R.drop (j - ins.length - a.length) := by
        rw [List.drop_append_eq_append_drop,
          List.drop_eq_nil_of_le (by omega), List.nil_append]
      have e4 : j - (a ++ ins).length = j - ins.length - a.length := by
        simp only [List.length_append]
        omega
      rw [e2, e4] at h
      rw [e3]
      exact h
    · exfalso
      by_cases h3 : j < a.length
      · have hja : j ≤ a.length := le_of_lt h3
        have z1 : j - (a ++ ins).length = 0 :=
          Nat.sub_eq_zero_of_le (by simp only [List.length_append]; omega)
        have z2 : j - a.length = 0 := Nat.sub_eq_zero_of_le hja
        have e1 : ((a ++ ins) ++ R).drop j = (a.drop j ++ ins) ++ R := by
          rw [List.drop_append_eq_append_drop, List.drop_append_eq_append_drop,
            z1, z2, List.drop_zero, List.drop_zero]
        rw [e1] at h
        have h'' : leadsB p (a.drop j ++ (ins ++ R)) = true := by
          simpa [List.append_assoc] using h
        have hlen : (a.drop j).length = a.length - j := List.length_drop j a
        have hsp := leadsB_split (t := p) (u := a.drop j) (x := ins ++ R) h''
          (by rw [hlen]; omega)
        rw [hlen] at hsp
        have hk0 : 0 < a.length - j := by omega
        have hkp : a.length - j < p.length := by omega
        rcases le_or_lt (p.drop (a.length - j)).length ins.length with hle4 | hlt4
        · have hld := leadsB_of_le hsp.2 hle4
          rw [hE4 (a.length - j) hkp hk0] at hld
          simp at hld
        · have hsp2 := leadsB_split (t := p.drop (a.length - j)) (u := ins)
            (x := R) hsp.2 (le_of_lt hlt4)
          obtain ⟨e, he⟩ :=
            (leadsB_iff ins (p.drop (a.length - j))).1 hsp2.1
          have hin : withinB ins p = true := by
            refine (withinB_iff _ _).2 ⟨p.take (a.length - j), e, ?_⟩
            rw [List.append_assoc, ← he, List.take_append_drop]
          rw [hE2] at hin
          simp at hin
      · have ha : a.length ≤ j := le_of_not_lt h3
        have hi : j - a.length < ins.length := by omega
        have z1 : j - (a ++ ins).length = 0 :=
          Nat.sub_eq_zero_of_le (by simp only [List.length_append]; omega)
        have e4 : ((a ++ ins) ++ R).drop j = ins.drop (j - a.length) ++ R := by
          rw [List.drop_append_eq_append_drop, List.drop_append_eq_append_drop,
            z1, List.drop_zero, List.drop_eq_nil_of_le ha, List.nil_append]
        rw [e4] at h
        rcases le_or_lt p.length (ins.drop (j - a.length)).length with hle5 | hlt5
        · have hld := leadsB_of_le h hle5
          obtain ⟨e, he⟩ := (leadsB_iff p (ins.drop (j - a.length))).1 hld
          have hin : withinB p ins = true := by
            refine (withinB_iff _ _).2 ⟨ins.take (j - a.length), e, ?_⟩
            rw [List.append_assoc, ← he, List.take_append_drop]
          rw [hE1] at hin
          simp at hin
        · have hsp := leadsB_split (t := p) (u := ins.drop (j - a.length))
            (x := R) h (le_of_lt hlt5)
          have hld := hsp.1
          rw [hE3 (j - a.length) hi] at hld
          simp at hld

theorem replace_no_make {t p s : List Char} (r : List Char)
    (hm1 : withinB p r = false)
    (hm2 : ∀ i < r.length, leadsB (r.drop i) p = false)
    (hk : ∀ k < p.length, leadsB (p.drop k) r = false)
    (hw : withinB r p = false)
    (hs : withinB p s = false) : withinB p (pyReplace s t r) = false := by
  cases hx : withinB p (pyReplace s t r) with
  | false => rfl
  | true => exact absurd (replace_no_new r hm1 hm2 hk hw hx) (by simp [hs])

/-! ### Facts about `splitFirst` -/

theorem splitFirst_leads {t s : List Char} (h : leadsB t s = true) :
    splitFirst t s = some ([], s.drop t.length) := by
  cases s with
  | nil =>
    have ht := (leadsB_nil_iff t).1 h
    simp [splitFirst, ht, leadsB]
  | cons c s' => simp [splitFirst, h]

theorem splitFirst_none_iff : ∀ t s : List Char,
    splitFirst t s = none ↔ withinB t s = false
  | t, [] => by
    cases hl : leadsB t [] <;> simp [splitFirst, withinB, hl]
  | t, c :: s => by
    cases hl : leadsB t (c :: s) with
    | true => simp [splitFirst, hl, withinB]
    | false =>
      have IH := splitFirst_none_iff t s
      cases hsp : splitFirst t s with
      | none => simp [splitFirst, hl, hsp, withinB, IH.1 hsp]
      | some ab =>
        rcases ab with ⟨a, b⟩
        have hin : withinB t s = true := by
          cases hx : withinB t s with
          | true => rfl
          | false => rw [IH.2 hx] at hsp; simp at hsp
        simp [splitFirst, hl, hsp, withinB, hin]

theorem splitFirst_at (t : List Char) : ∀ u v : List Char,
    (∀ j < u.length, leadsB t (((u ++ t) ++ v).drop j) = false) →
    splitFirst t ((u ++ t) ++ v) = some (u, v)
  | [], v => fun _ => by
    have h0 : ([] ++ t) ++ v = t ++ v := by simp
    rw [h0, splitFirst_leads (leadsB_append t v), List.drop_left]
  | c :: u', v => fun h => by
    have hs : ((c :: u' ++ t) ++ v) = c :: ((u' ++ t) ++ v) := by simp
    have h0 := h 0 (by simp)
    rw [List.drop_zero] at h0
    have IH := splitFirst_at t u' v (fun j hj => by
      have := h (j + 1) (by simpa using Nat.succ_lt_succ hj)
      rwa [hs, List.drop_succ_cons] at this)
    rw [hs]
    simp only [splitFirst]
    rw [if_neg (by rw [← hs, h0]; exact Bool.false_ne_true)]
    rw [IH]

theorem splitFirst_some (t : List Char) : ∀ s a b : List Char,
    splitFirst t s = some (a, b) →
    s = (a ++ t) ++ b ∧ ∀ j < a.length, leadsB t (s.drop j) = false
  | [], a, b => fun h => by
    cases hl : leadsB t [] with
    | true =>
      have ht := (leadsB_nil_iff t).1 hl
      rw [splitFirst, if_pos hl] at h
      obtain ⟨rfl, rfl⟩ : a = [] ∧ b = [] := by simpa using h
      exact ⟨by simp [ht], by intro j hj; simp at hj⟩
    | false =>
      rw [splitFirst, if_neg (by rw [hl]; exact Bool.false_ne_true)] at h
      simp at h
  | c :: s', a, b => fun h => by
    cases hl : leadsB t (c :: s') with
    | true =>
      rw [splitFirst, if_pos hl] at h
      have h' : a = [] ∧ List.drop t.length (c :: s') = b := by simpa using h
      obtain ⟨rfl, rfl⟩ := h'
      refine ⟨by simpa using leadsB_drop_recover hl, ?_⟩
      intro j hj
      simp at hj
    | false =>
      rw [splitFirst, if_neg (by rw [hl]; exact Bool.false_ne_true)] at h
      cases hsp : splitFirst t s' with
      | none => rw [hsp] at h; simp at h
      | some ab =>
        obtain ⟨a2, b2⟩ := ab
        rw [hsp] at h
        have h' : c :: a2 = a ∧ b2 = b := by simpa using h
        obtain ⟨rfl, rfl⟩ := h'
        obtain ⟨hdec, hpos⟩ := splitFirst_some t s' a2 b2 hsp
        refine ⟨by simp [hdec], ?_⟩
        intro j hj
        cases j with
        | zero => simpa using hl
        | succ j' =>
          rw [List.drop_succ_cons]
          exact hpos j' (by simpa using Nat.lt_of_succ_lt_succ hj)

theorem isEmpty_false {l : List Char} (h : l ≠ []) : l.isEmpty = false := by
  cases l with
  | nil => exact absurd rfl h
  | cons c s => rfl

/-! ### Claims about `extract_section` -/

/-- Claim C1 (counterexample): the claim asserts that whenever the start
marker occurs but the end marker does not occur after it, `extract` returns
the empty string.  At `text = "ab"`, `start = "a"`, `end = "c"` the start
marker occurs, the end marker does not occur in the portion `"b"` after it,
yet `extract_section` returns `"b"`, not the empty string: Python's
`split(end)[0]` on a marker-free string is the whole string, not `""`. -/
theorem extract_no_end_marker_refuted :
    withinB "a".toList "ab".toList = true ∧
    withinB "c".toList "b".toList = false ∧
    extract_section "ab".toList "a".toList "c".toList = "b".toList ∧
    extract_section "ab".toList "a".toList "c".toList ≠ [] := by decide

/-- Claim C1 (amended): whenever the start marker occurs, `extract_section`
returns the portion after its first occurrence, up to the next start-marker
occurrence or the end of the text, stripped of surrounding whitespace,
provided the end marker does not occur in that portion (this covers both the
missing-end-marker case and the reversed-markers case, where the end marker
occurs only before the start marker) — the empty string exactly when the
portion is whitespace, but not in general.  Part 1 is the case where the
start marker does not recur, the portion `m` running to the end of the text;
part 2 is the case where the start marker recurs, the portion `m` running up
to its next occurrence. -/
theorem extract_no_end_marker :
    (∀ u m st fin : List Char, st ≠ [] → fin ≠ [] →
      (∀ j < u.length, leadsB st (((u ++ st) ++ m).drop j) = false) →
      withinB st m = false → withinB fin m = false →
      extract_section ((u ++ st) ++ m) st fin = pyStrip m) ∧
    (∀ u m v st fin : List Char, st ≠ [] → fin ≠ [] →
      (∀ j < u.length,
        leadsB st (((u ++ st) ++ ((m ++ st) ++ v)).drop j) = false) →
      (∀ j < m.length, leadsB st (((m ++ st) ++ v).drop j) = false) →
      withinB fin m = false →
      extract_section ((u ++ st) ++ ((m ++ st) ++ v)) st fin = pyStrip m) := by
  constructor
  · intro u m st fin hst hfin h1 h2 h3
    rw [extract_section, if_neg (by
      rw [isEmpty_false hst, isEmpty_false hfin]
      exact Bool.false_ne_true)]
    rw [splitFirst_at st u m h1]
    simp only [(splitFirst_none_iff st m).2 h2,
      (splitFirst_none_iff fin m).2 h3]
  · intro u m v st fin hst hfin h1 h2 h3
    rw [extract_section, if_neg (by
      rw [isEmpty_false hst, isEmpty_false hfin]
      exact Bool.false_ne_true)]
    rw [splitFirst_at st u _ h1]
    simp only [splitFirst_at st m v h2, (splitFirst_none_iff fin m).2 h3]

/-- Claim C1 (witness): instances of both parts of the amended statement: at
`text = "xq b "`, `start = "q"`, `end = "z"` the start marker does not recur
and the result is the trimmed tail `"b"`; at `text = "xq A q B"`, same
markers, the start marker recurs and the result is the trimmed portion
`"A"` between its first two occurrences. -/
theorem extract_no_end_marker_inst :
    extract_section (("x".toList ++ "q".toList) ++ " b ".toList)
      "q".toList "z".toList = pyStrip " b ".toList ∧
    extract_section (("x".toList ++ "q".toList) ++
        ((" A ".toList ++ "q".toList) ++ " B".toList))
      "q".toList "z".toList = pyStrip " A ".toList :=
  ⟨extract_no_end_marker.1 "x".toList " b ".toList "q".toList "z".toList
     (by decide) (by decide) (by decide) (by decide) (by decide),
   extract_no_end_marker.2 "x".toList " A ".toList " B".toList "q".toList
     "z".toList (by decide) (by decide) (by decide) (by decide) (by decide)⟩

/-- Claim C4 (counterexample): the claim asserts that whenever the start
marker occurs and the end marker occurs after it, `extract` returns the
substring strictly between the first start marker and the first subsequent
end marker, trimmed.  At `text = "aaxb"`, `start = "a"`, `end = "b"` that
substring is `"ax"` (trimmed `"ax"`), but `extract_section` returns `""`:
Python's `split(start)[1]` stops at the second occurrence of the start
marker, which here precedes the end marker. -/
theorem extract_between_markers_refuted :
    withinB "a".toList "aaxb".toList = true ∧
    withinB "b".toList "axb".toList = true ∧
    pyStrip "ax".toList = "ax".toList ∧
    extract_section "aaxb".toList "a".toList "b".toList = [] ∧
    extract_section "aaxb".toList "a".toList "b".toList ≠ "ax".toList := by
  decide

/-- Claim C4 (amended): (1) when the start marker does not occur,
`extract_section` returns the empty string; (2) when the start marker first
occurs at position `u.length`, the end marker first occurs after it at the
end of the portion `m`, and in addition the start marker does not occur
again before the end of that end marker (or the two markers are the literal
same marker), `extract_section` returns `m` trimmed of whitespace;
(3) the concrete `--html--` example from the specification. -/
theorem extract_between_markers :
    (∀ text st fin : List Char, withinB st text = false →
      extract_section text st fin = []) ∧
    (∀ u m v st fin : List Char, st ≠ [] → fin ≠ [] →
      (∀ j < u.length,
        leadsB st (((u ++ st) ++ ((m ++ fin) ++ v)).drop j) = false) →
      (∀ j < m.length, leadsB fin (((m ++ fin) ++ v).drop j) = false) →
      (st = fin ∨ ∀ j < m.length + fin.length,
        leadsB st (((m ++ fin) ++ v).drop j) = false) →
      extract_section ((u ++ st) ++ ((m ++ fin) ++ v)) st fin = pyStrip m) ∧
    extract_section "--html--\n<p>x</p>\n--html--".toList "--html--".toList
      "--html--".toList = "<p>x</p>".toList := by
  refine ⟨?_, ?_, by decide⟩
  · intro text st fin hw
    rw [extract_section]
    by_cases hc : (st.isEmpty || fin.isEmpty) = true
    · rw [if_pos hc]
    · rw [if_neg hc, (splitFirst_none_iff st text).2 hw]
  · intro u m v st fin hst hfin h1 h2 h5
    have hfin1 : 1 ≤ fin.length := by
      rcases fin with _ | ⟨c, f⟩
      · exact absurd rfl hfin
      · simp
    have hfm : withinB fin m = false := by
      cases hx : withinB fin m with
      | false => rfl
      | true =>
        exfalso
        obtain ⟨j, hj1, hj2⟩ := occ_of_within hx
        have hjm : j < m.length := by omega
        have e : ((m ++ fin) ++ v).drop j = m.drop j ++ (fin ++ v) := by
          rw [List.drop_append_eq_append_drop, List.drop_append_eq_append_drop,
            Nat.sub_eq_zero_of_le (le_of_lt hjm),
            Nat.sub_eq_zero_of_le (by simp only [List.length_append]; omega),
            List.drop_zero, List.drop_zero, List.append_assoc]
        have hext : leadsB fin (((m ++ fin) ++ v).drop j) = true := by
          rw [e]
          exact leadsB_mono_right _ hj2
        rw [h2 j hjm] at hext
        simp at hext
    rw [extract_section, if_neg (by
      rw [isEmpty_false hst, isEmpty_false hfin]
      exact Bool.false_ne_true)]
    rw [splitFirst_at st u _ h1]
    rcases h5 with hB | hA
    · subst hB
      simp only [splitFirst_at st m v h2, (splitFirst_none_iff st m).2 hfm]
    · cases hsp : splitFirst st ((m ++ fin) ++ v) with
      | none =>
        simp only [hsp, splitFirst_at fin m v h2]
      | some ab =>
        obtain ⟨a2, b2⟩ := ab
        obtain ⟨hdec, hpos⟩ := splitFirst_some st _ a2 b2 hsp
        have hlen : (m ++ fin).length ≤ a2.length := by
          by_contra hcon
          have hlt : a2.length < m.length + fin.length := by
            simp only [List.length_append] at hcon
            omega
          have hdr : ((m ++ fin) ++ v).drop a2.length = st ++ b2 := by
            conv_lhs => rw [hdec]
            rw [List.append_assoc, List.drop_left]
          have hcontra := hA a2.length hlt
          rw [hdr, leadsB_append] at hcontra
          simp at hcontra
        have ht1 : ((m ++ fin) ++ v).take a2.length = a2 := by
          conv_lhs => rw [hdec]
          rw [List.append_assoc, List.take_left]
        have ha2 : a2 = (m ++ fin) ++ v.take (a2.length - (m ++ fin).length) := by
          have ht2 : ((m ++ fin) ++ v).take a2.length =
              (m ++ fin) ++ v.take (a2.length - (m ++ fin).length) := by
            rw [List.take_append_eq_append_take, List.take_of_length_le hlen]
          exact ht1.symm.trans ht2
        have hj2 : ∀ j < m.length,
            leadsB fin (((m ++ fin) ++
              v.take (a2.length - (m ++ fin).length)).drop j) = false := by
          intro j hj
          set w := v.take (a2.length - (m ++ fin).length) with hw
          cases hx : leadsB fin (((m ++ fin) ++ w).drop j) with
          | false => rfl
          | true =>
            exfalso
            have e : ((m ++ fin) ++ w).drop j = (m.drop j ++ fin) ++ w := by
              rw [List.drop_append_eq_append_drop, List.drop_append_eq_append_drop,
                Nat.sub_eq_zero_of_le (le_of_lt hj),
                Nat.sub_eq_zero_of_le (by simp only [List.length_append]; omega),
                List.drop_zero, List.drop_zero]
            rw [e] at hx
            have hshort : leadsB fin (m.drop j ++ fin) = true := by
              refine leadsB_of_le hx ?_
              simp only [List.length_append, List.length_drop]
              omega
            have hext : leadsB fin (((m ++ fin) ++ v).drop j) = true := by
              have e2 : ((m ++ fin) ++ v).drop j = (m.drop j ++ fin) ++ v := by
                rw [List.drop_append_eq_append_drop, List.drop_append_eq_append_drop,
                  Nat.sub_eq_zero_of_le (le_of_lt hj),
                  Nat.sub_eq_zero_of_le (by simp only [List.length_append]; omega),
                  List.drop_zero, List.drop_zero]
              rw [e2]
              exact leadsB_mono_right _ hshort
            rw [h2 j hj] at hext
            simp at hext
        rw [ha2] at hsp
        simp only [hsp, splitFirst_at fin m _ hj2]

/-- Claim C4 (witness): instances of both hypothesis-bearing parts of the
amended statement: a marker-free text extracts to the empty string, and a
well-delimited text extracts to its trimmed middle portion. -/
theorem extract_between_markers_inst :
    extract_section "no markers".toList "<".toList ">".toList = [] ∧
    extract_section (("A".toList ++ "<".toList) ++
        ((" mid ".toList ++ ">".toList) ++ "tail".toList))
      "<".toList ">".toList = pyStrip " mid ".toList :=
  ⟨extract_between_markers.1 "no markers".toList "<".toList ">".toList
     (by decide),
   extract_between_markers.2.1 "A".toList " mid ".toList "tail".toList
     "<".toList ">".toList (by decide) (by decide) (by decide) (by decide)
     (Or.inr (by decide))⟩

/-! ### Claims about the packager and the orchestration -/

/-- Claim C7: for every triple of text blobs, the archive built by the
packager has exactly the three entries `index.html`, `style.css`,
`script.js`, and reading each entry back yields the corresponding input text
verbatim; in particular for the inputs `"A"`, `"B"`, `"C"`. -/
theorem pack_round_trip :
    (∀ h c j : List Char,
      (pack h c j).map Prod.fst = ["index.html", "style.css", "script.js"] ∧
      (pack h c j).length = 3 ∧
      readEntry (pack h c j) "index.html" = some h ∧
      readEntry (pack h c j) "style.css" = some c ∧
      readEntry (pack h c j) "script.js" = some j) ∧
    (readEntry (pack "A".toList "B".toList "C".toList) "index.html" =
        some "A".toList ∧
      readEntry (pack "A".toList "B".toList "C".toList) "style.css" =
        some "B".toList ∧
      readEntry (pack "A".toList "B".toList "C".toList) "script.js" =
        some "C".toList) := by
  refine ⟨fun h c j => ⟨rfl, rfl, ?_, ?_, ?_⟩, by decide⟩ <;> rfl

/-- Claim C8: when the brief is non-blank but the extracted markup section is
empty (for example a reply without `--html--` markers), the cycle ends in
`parseFailure` carrying the raw reply verbatim: the user-visible error and
the raw reply are shown, and neither repair nor packaging runs — the result
is not a `success` archive, and the model embeds no retry. -/
theorem pipeline_parse_failure (prompt response : List Char)
    (hp : pyStrip prompt ≠ [])
    (he : extract_section response htmlMarker htmlMarker = []) :
    generate_site prompt response = .parseFailure response := by
  simp [generate_site, hp, he]

/-- Claim C8 (witness): a non-blank brief with a marker-free reply. -/
theorem pipeline_parse_failure_inst :
    generate_site "hi".toList "no markers here".toList =
      GenResult.parseFailure "no markers here".toList :=
  pipeline_parse_failure "hi".toList "no markers here".toList
    (by decide) (by decide)

/-- Claim C9: when the brief is empty or whitespace-only, the cycle ends in
`emptyInput` whatever reply the model would have produced — the guard fires
before the model call, a user-visible error is shown, and no archive is
built; the page stays open for the next attempt. -/
theorem pipeline_empty_input (prompt response : List Char)
    (hp : pyStrip prompt = []) :
    generate_site prompt response = .emptyInput := by
  simp [generate_site, hp]

/-- Claim C9 (witness): a whitespace-only brief halts the cycle. -/
theorem pipeline_empty_input_inst :
    generate_site " \t\n".toList "--html--x--html--".toList =
      GenResult.emptyInput :=
  pipeline_empty_input " \t\n".toList "--html--x--html--".toList (by decide)

/-! ### Claims about `fix_html_links` -/

theorem fix_unfold (x : List Char) :
    fix_html_links x =
      if withinB scriptTag
          (if withinB linkTag x then x else pyReplace x headClose linkIns) then
        (if withinB linkTag x then x else pyReplace x headClose linkIns)
      else
        pyReplace
          (if withinB linkTag x then x else pyReplace x headClose linkIns)
          bodyClose scriptIns := rfl

theorem stage1_link (m : List Char) :
    withinB linkTag (if withinB linkTag m then m
      else pyReplace m headClose linkIns) = true ∨
    withinB headClose (if withinB linkTag m then m
      else pyReplace m headClose linkIns) = false := by
  cases hx : withinB linkTag m with
  | true => simp [hx]
  | false =>
    simp only [hx, Bool.false_eq_true, if_false]
    cases hh : withinB headClose m with
    | true =>
      left
      have hrep := replace_has_rep linkIns (by decide) hh
      exact within_trans (by decide) hrep
    | false =>
      right
      rw [replace_absent linkIns hh]
      exact hh

theorem stage2_link (h1 : List Char)
    (hl : withinB linkTag h1 = true ∨ withinB headClose h1 = false) :
    withinB linkTag (if withinB scriptTag h1 then h1
      else pyReplace h1 bodyClose scriptIns) = true ∨
    withinB headClose (if withinB scriptTag h1 then h1
      else pyReplace h1 bodyClose scriptIns) = false := by
  cases hx : withinB scriptTag h1 with
  | true => simpa [hx] using hl
  | false =>
    simp only [hx, Bool.false_eq_true, if_false]
    rcases hl with hl | hl
    · exact Or.inl (replace_keeps scriptIns (by decide) (by decide) (by decide)
        (by decide) (by decide) hl)
    · exact Or.inr (replace_no_make scriptIns (by decide) (by decide)
        (by decide) (by decide) hl)

theorem stage2_script (h1 : List Char) :
    withinB scriptTag (if withinB scriptTag h1 then h1
      else pyReplace h1 bodyClose scriptIns) = true ∨
    withinB bodyClose (if withinB scriptTag h1 then h1
      else pyReplace h1 bodyClose scriptIns) = false := by
  cases hx : withinB scriptTag h1 with
  | true => simp [hx]
  | false =>
    simp only [hx, Bool.false_eq_true, if_false]
    cases hb : withinB bodyClose h1 with
    | true =>
      left
      have hrep := replace_has_rep scriptIns (by decide) hb
      exact within_trans (by decide) hrep
    | false =>
      right
      rw [replace_absent scriptIns hb]
      exact hb

theorem fix_state (m : List Char) :
    (withinB linkTag (fix_html_links m) = true ∨
      withinB headClose (fix_html_links m) = false) ∧
    (withinB scriptTag (fix_html_links m) = true ∨
      withinB bodyClose (fix_html_links m) = false) := by
  rw [fix_unfold m]
  exact ⟨stage2_link _ (stage1_link m), stage2_script _⟩

/-- Claim C5: repair is idempotent on every markup string, and markup already
containing both literal presence-check substrings is returned byte-for-byte
unchanged. -/
theorem repair_idem :
    (∀ m, fix_html_links (fix_html_links m) = fix_html_links m) ∧
    (∀ m, withinB linkTag m = true → withinB scriptTag m = true →
      fix_html_links m = m) := by
  constructor
  · intro m
    obtain ⟨hL, hS⟩ := fix_state m
    rw [fix_unfold (fix_html_links m)]
    have h1eq : (if withinB linkTag (fix_html_links m) then fix_html_links m
        else pyReplace (fix_html_links m) headClose linkIns) =
        fix_html_links m := by
      cases hLT : withinB linkTag (fix_html_links m) with
      | true => simp
      | false =>
        simp only [Bool.false_eq_true, if_false]
        rcases hL with hL | hL
        · simp [hLT] at hL
        · rw [replace_absent linkIns hL]
    rw [h1eq]
    cases hST : withinB scriptTag (fix_html_links m) with
    | true => simp
    | false =>
      simp only [Bool.false_eq_true, if_false]
      rcases hS with hS | hS
      · simp [hST] at hS
      · rw [replace_absent scriptIns hS]
  · intro m hL hS
    rw [fix_unfold m]
    simp [hL, hS]

/-- Claim C5 (witness): the unchanged-markup part of the statement applied to
a markup string containing both literal check substrings. -/
theorem repair_idem_inst :
    fix_html_links
        "<link rel=\"stylesheet\"<script src=\"script.js\"".toList =
      "<link rel=\"stylesheet\"<script src=\"script.js\"".toList :=
  repair_idem.2 "<link rel=\"stylesheet\"<script src=\"script.js\"".toList
    (by decide) (by decide)

/-- Claim C6: repair is total (the translation is a plain function; no
exception path exists) and when a closing tag is missing the corresponding
insertion silently does nothing: markup lacking both the stylesheet-link
check string and a closing head tag still lacks a stylesheet-link tag after
repair, and symmetrically for the script side. -/
theorem repair_missing_close_tags :
    (∀ html, withinB linkTag html = false → withinB headClose html = false →
      withinB linkTag (fix_html_links html) = false) ∧
    (∀ html, withinB scriptTag html = false → withinB bodyClose html = false →
      withinB scriptTag (fix_html_links html) = false) := by
  constructor
  · intro html hL hH
    rw [fix_unfold html]
    cases hx : withinB scriptTag html with
    | true => simp [hL, replace_absent linkIns hH, hx]
    | false =>
      have hnew : withinB linkTag (pyReplace html bodyClose scriptIns) = false :=
        replace_no_make scriptIns (by decide) (by decide) (by decide)
          (by decide) hL
      simp [hL, replace_absent linkIns hH, hx, hnew]
  · intro html hS hB
    rw [fix_unfold html]
    cases hx : withinB linkTag html with
    | true => simp [hx, hS, replace_absent scriptIns hB]
    | false =>
      have hS1 : withinB scriptTag (pyReplace html headClose linkIns) = false :=
        replace_no_make linkIns (by decide) (by decide) (by decide)
          (by decide) hS
      have hB1 : withinB bodyClose (pyReplace html headClose linkIns) = false :=
        replace_no_make linkIns (by decide) (by decide) (by decide)
          (by decide) hB
      simp [hx, hS1, replace_absent scriptIns hB1]

/-- Claim C6 (witness): markup `"x"` with no tags at all is left alone and
gains neither tag. -/
theorem repair_missing_close_tags_inst :
    withinB linkTag (fix_html_links "x".toList) = false ∧
    withinB scriptTag (fix_html_links "x".toList) = false :=
  ⟨repair_missing_close_tags.1 "x".toList (by decide) (by decide),
   repair_missing_close_tags.2 "x".toList (by decide) (by decide)⟩

/-- Claim C10: the presence checks of repair are bare substring matches on
tag prefixes: markup containing `'<link rel="stylesheet"'` anywhere — with
any href, pointing at any file — skips the stylesheet insertion entirely,
markup containing `'<script src="script.js"'` skips the script insertion,
and consequently repaired markup need not reference `style.css`: a link tag
with `href="other.css"` suppresses the insertion and the output never
mentions `style.css`. -/
theorem repair_literal_check :
    (∀ html, withinB linkTag html = true →
      fix_html_links html =
        (if withinB scriptTag html then html
         else pyReplace html bodyClose scriptIns)) ∧
    (∀ html, withinB scriptTag html = true →
      fix_html_links html =
        (if withinB linkTag html then html
         else pyReplace html headClose linkIns)) ∧
    (withinB linkTag
      "<link rel=\"stylesheet\" href=\"other.css\"></head></body>".toList
        = true ∧
     withinB "style.css".toList
      (fix_html_links
        "<link rel=\"stylesheet\" href=\"other.css\"></head></body>".toList)
        = false) := by
  refine ⟨?_, ?_, by decide⟩
  · intro html h
    rw [fix_unfold html]
    simp [h]
  · intro html h
    rw [fix_unfold html]
    cases hx : withinB linkTag html with
    | true => simp [hx, h]
    | false =>
      have hkeep : withinB scriptTag (pyReplace html headClose linkIns) = true :=
        replace_keeps linkIns (by decide) (by decide) (by decide) (by decide)
          (by decide) h
      simp [hx, hkeep]

/-- Claim C10 (witness): instances of both skip behaviours at concrete
markup containing the respective check substring. -/
theorem repair_literal_check_inst :
    fix_html_links "<link rel=\"stylesheet\" href=\"o.css\">y".toList =
      (if withinB scriptTag "<link rel=\"stylesheet\" href=\"o.css\">y".toList
       then "<link rel=\"stylesheet\" href=\"o.css\">y".toList
       else pyReplace "<link rel=\"stylesheet\" href=\"o.css\">y".toList
         bodyClose scriptIns) ∧
    fix_html_links "<script src=\"script.js\">y".toList =
      (if withinB linkTag "<script src=\"script.js\">y".toList
       then "<script src=\"script.js\">y".toList
       else pyReplace "<script src=\"script.js\">y".toList
         headClose linkIns) :=
  ⟨repair_literal_check.1 "<link rel=\"stylesheet\" href=\"o.css\">y".toList
     (by decide),
   repair_literal_check.2.1 "<script src=\"script.js\">y".toList (by decide)⟩

/-- Claim C2 (counterexample): the claim asserts that in markup with several
closing head tags only the first receives an insertion.  On
`"</head></head>"` (neither literal tag present) repair inserts a
stylesheet-link tag before BOTH closing head tags — Python's `str.replace`
replaces every occurrence — so the output is `linkIns ++ linkIns` and not
the claimed single insertion before the first tag only. -/
theorem repair_first_only_refuted :
    fix_html_links "</head></head>".toList = linkIns ++ linkIns ∧
    linkIns ++ linkIns ≠ linkInsHead ++ "</head></head>".toList := by decide

/-- Claim C2 (amended): repair inserts a stylesheet-link tag before EVERY
closing head tag and a script tag before EVERY closing body tag; in
particular, when the markup contains exactly one closing head tag followed
by exactly one closing body tag (and neither literal check substring),
exactly one stylesheet-link tag and one script tag are inserted, each
immediately before its closing tag. -/
theorem repair_single_occurrence (a b c : List Char)
    (hL : withinB linkTag ((a ++ headClose) ++ ((b ++ bodyClose) ++ c)) = false)
    (hS : withinB scriptTag
      ((a ++ headClose) ++ ((b ++ bodyClose) ++ c)) = false)
    (hHd1 : ∀ j < a.length, leadsB headClose
      (((a ++ headClose) ++ ((b ++ bodyClose) ++ c)).drop j) = false)
    (hHd2 : withinB headClose ((b ++ bodyClose) ++ c) = false)
    (hBd1 : ∀ j < ((a ++ headClose) ++ b).length, leadsB bodyClose
      (((a ++ headClose) ++ ((b ++ bodyClose) ++ c)).drop j) = false)
    (hBd2 : withinB bodyClose c = false) :
    fix_html_links ((a ++ headClose) ++ ((b ++ bodyClose) ++ c)) =
      (((a ++ linkIns) ++ b) ++ scriptIns) ++ c := by
  have hsplit : linkIns = linkInsHead ++ headClose := by decide
  have e2 : headClose.length = 7 := by decide
  have e3 : bodyClose.length = 7 := by decide
  have e4 : linkIns.length = linkInsHead.length + 7 := by decide
  have h1def : pyReplace ((a ++ headClose) ++ ((b ++ bodyClose) ++ c))
      headClose linkIns = (a ++ linkIns) ++ ((b ++ bodyClose) ++ c) := by
    rw [replace_at linkIns a (by decide) hHd1, replace_absent linkIns hHd2]
  have hS1 : withinB scriptTag
      ((a ++ linkIns) ++ ((b ++ bodyClose) ++ c)) = false := by
    have hS1' : withinB scriptTag
        (pyReplace ((a ++ headClose) ++ ((b ++ bodyClose) ++ c))
          headClose linkIns) = false :=
      replace_no_make linkIns (by decide) (by decide) (by decide)
        (by decide) hS
    rwa [h1def] at hS1'
  have hForm : (a ++ headClose) ++ ((b ++ bodyClose) ++ c) =
      a ++ (headClose ++ ((b ++ bodyClose) ++ c)) := by
    simp [List.append_assoc]
  have hEq2 : (((a ++ linkIns) ++ b) ++ bodyClose) ++ c =
      (a ++ linkInsHead) ++ (headClose ++ ((b ++ bodyClose) ++ c)) := by
    rw [hsplit]
    simp [List.append_assoc]
  have hj2 : ∀ j < ((a ++ linkIns) ++ b).length, leadsB bodyClose
      (((((a ++ linkIns) ++ b) ++ bodyClose) ++ c).drop j) = false := by
    intro j hj
    cases hocc : leadsB bodyClose
        (((((a ++ linkIns) ++ b) ++ bodyClose) ++ c).drop j) with
    | false => rfl
    | true =>
      exfalso
      rw [hEq2] at hocc
      simp only [List.length_append] at hj
      rcases occ_through_insert a _ j (by decide) (by decide) (by decide)
        (by decide) hocc with ⟨hj1, hlast⟩ | ⟨hj1, hlast⟩
      · rw [← hForm] at hlast
        have hcon := hBd1 j (by
          simp only [List.length_append]
          omega)
        rw [hcon] at hlast
        simp at hlast
      · rw [← hForm] at hlast
        have hcon := hBd1 (j - linkInsHead.length) (by
          simp only [List.length_append]
          omega)
        rw [hcon] at hlast
        simp at hlast
  have hassoc : (a ++ linkIns) ++ ((b ++ bodyClose) ++ c) =
      (((a ++ linkIns) ++ b) ++ bodyClose) ++ c := by
    simp [List.append_assoc]
  rw [fix_unfold]
  simp only [hL, Bool.false_eq_true, if_false, h1def, hS1]
  rw [hassoc, replace_at scriptIns ((a ++ linkIns) ++ b) (by decide) hj2,
    replace_absent scriptIns hBd2]

/-- Claim C2 (witness): the amended statement applied to markup with one
closing head tag and one closing body tag, each of which receives exactly
one insertion immediately before it. -/
theorem repair_single_occurrence_inst :
    fix_html_links (("<head>".toList ++ headClose) ++
        (("<body>".toList ++ bodyClose) ++ "!".toList)) =
      ((("<head>".toList ++ linkIns) ++ "<body>".toList) ++ scriptIns) ++
        "!".toList :=
  repair_single_occurrence "<head>".toList "<body>".toList "!".toList
    (by decide) (by decide) (by decide) (by decide) (by decide) (by decide)

theorem fix_adds_refs (m : List Char)
    (hL : withinB linkTag m = false)
    (hHd : withinB headClose m = true)
    (hBd : withinB bodyClose m = true) :
    withinB "style.css".toList (fix_html_links m) = true ∧
    withinB "script.js".toList (fix_html_links m) = true := by
  have hstage1 : (if withinB linkTag m then m
      else pyReplace m headClose linkIns) = pyReplace m headClose linkIns := by
    simp [hL]
  have hlink1 : withinB "style.css".toList
      (pyReplace m headClose linkIns) = true :=
    within_trans (by decide) (replace_has_rep linkIns (by decide) hHd)
  have hbd1 : withinB bodyClose (pyReplace m headClose linkIns) = true :=
    replace_keeps linkIns (by decide) (by decide) (by decide) (by decide)
      (by decide) hBd
  rw [fix_unfold m, hstage1]
  cases hx : withinB scriptTag (pyReplace m headClose linkIns) with
  | true =>
    constructor
    · simpa using hlink1
    · simpa using within_trans (by decide) hx
  | false =>
    simp only [Bool.false_eq_true, if_false]
    exact ⟨replace_keeps scriptIns (by decide) (by decide) (by decide)
        (by decide) (by decide) hlink1,
      within_trans (by decide) (replace_has_rep scriptIns (by decide) hbd1)⟩

/-- Claim C3 (counterexample): the claim asserts that every markup produced
by the pipeline after repair references `style.css` and `script.js`.  A
reply whose markup section is `"x"` (no closing head or body tag) passes
through repair unchanged, reaches the archive, and references neither. -/
theorem pipeline_canonical_markup_refuted :
    generate_site "p".toList "--html--x--html--".toList =
      GenResult.success (pack "x".toList [] []) ∧
    withinB "style.css".toList "x".toList = false ∧
    withinB "script.js".toList "x".toList = false := by decide

/-- Claim C3 (amended): when the brief is non-blank, the extracted markup is
non-empty, lacks the literal stylesheet-link check substring, and contains a
closing head tag and a closing body tag, the pipeline succeeds and the
repaired markup in the archive references both canonical filenames
`style.css` and `script.js` — whether or not the model's output referenced
them originally. -/
theorem pipeline_canonical_markup (prompt response : List Char)
    (hp : pyStrip prompt ≠ [])
    (hne : extract_section response htmlMarker htmlMarker ≠ [])
    (hL : withinB linkTag
      (extract_section response htmlMarker htmlMarker) = false)
    (hHd : withinB headClose
      (extract_section response htmlMarker htmlMarker) = true)
    (hBd : withinB bodyClose
      (extract_section response htmlMarker htmlMarker) = true) :
    generate_site prompt response = GenResult.success (pack
      (fix_html_links (extract_section response htmlMarker htmlMarker))
      (extract_section response cssMarker cssMarker)
      (extract_section response jsMarker jsMarker)) ∧
    withinB "style.css".toList
      (fix_html_links (extract_section response htmlMarker htmlMarker))
      = true ∧
    withinB "script.js".toList
      (fix_html_links (extract_section response htmlMarker htmlMarker))
      = true :=
  ⟨by simp [generate_site, hp, hne],
   (fix_adds_refs _ hL hHd hBd).1, (fix_adds_refs _ hL hHd hBd).2⟩

/-- Claim C3 (witness): a reply whose markup section has both closing tags
but no stylesheet or script reference; the packaged markup gains both. -/
theorem pipeline_canonical_markup_inst :
    generate_site "p".toList
        "--html--<head></head><body></body>--html--".toList =
      GenResult.success (pack
        (fix_html_links (extract_section
          "--html--<head></head><body></body>--html--".toList
          htmlMarker htmlMarker))
        (extract_section "--html--<head></head><body></body>--html--".toList
          cssMarker cssMarker)
        (extract_section "--html--<head></head><body></body>--html--".toList
          jsMarker jsMarker)) ∧
    withinB "style.css".toList
      (fix_html_links (extract_section
        "--html--<head></head><body></body>--html--".toList
        htmlMarker htmlMarker)) = true ∧
    withinB "script.js".toList
      (fix_html_links (extract_section
        "--html--<head></head><body></body>--html--".toList
        htmlMarker htmlMarker)) = true :=
  pipeline_canonical_markup "p".toList
    "--html--<head></head><body></body>--html--".toList
    (by decide) (by decide) (by decide) (by decide) (by decide)
